import Mathlib

/-!
# gcs_bandwidth: a verification development

Shallow embedding of

* `avro/utils.go` : `extractAvroInterface` and the six typed extractors
  `ExtractAvroString`, `ExtractAvroLong`, `ExtractAvroBool`,
  `ExtractAvroFloat32`, `ExtractAvroFloat64`, `ExtractAvroBytes`;
* `main.go`, `benchmark` : the worker goroutines (the claim loop around
  `atomic.AddInt64(&ix, 1)`, the per-object decode loop, `linesRead[tid]++`)
  as an interleaving step function, and the ticker goroutine that computes
  the exponentially weighted rate `ewrLps`.
-/

namespace GcsBandwidth

/-! ## Part 1. `avro/utils.go` -/

namespace Avro

/-- A Go `interface{}` value as produced by the Avro decoder or handed in by a
caller.  `map` is a `map[string]interface{}`; its entries are listed in the
order in which a `for k, v := range` statement over the map visits them (Go
leaves this order unspecified, so every statement below quantifies over all
lists).  A nil map and an empty map are both `map []`: neither is equal to the
nil interface and both are ranged over zero times.  `long` carries the value of
an `int64`, `float32`/`float64` carry the bit pattern of the float, `bytes`
carries a `[]byte` (`none` is the nil slice). -/
inductive Value where
  | nil
  | str (s : String)
  | long (n : Int)
  | int (n : Int)
  | bool (b : Bool)
  | float32 (bits : Nat)
  | float64 (bits : Nat)
  | bytes (b : Option (List Nat))
  | array (xs : List Value)
  | map (entries : List (String × Value))

/-- Go `error` values returned by `avro/utils.go`: the three package level
sentinels and the error built by `fmt.Errorf`, identified by its message. -/
inductive AvroError where
  | ErrNilItem
  | ErrBranchNode
  | ErrEmptyItem
  | errorf (msg : String)
  deriving DecidableEq, Repr

/-- The text of `fmt.Errorf("item was `%s`, not `%s`", k, typeName)`. -/
def mismatchMsg (k typeName : String) : String :=
  "item was `" ++ k ++ "`, not `" ++ typeName ++ "`"

/-- The function `extractAvroInterface(item, typeName)`.  The result is the
pair `(interface{}, error)`; `none` is the nil error.  The range loop returns
in its first iteration, so only the entry visited first is inspected. -/
def extractAvroInterface (item : Value) (typeName : String) : Value × Option AvroError :=
  match item with
  | Value.nil => (Value.nil, some AvroError.ErrNilItem)
  | Value.map entries =>
    match entries with
    | (k, v) :: _ =>
      if k = typeName then (v, none)
      else (Value.nil, some (AvroError.errorf (mismatchMsg k typeName)))
    | [] => (Value.nil, some AvroError.ErrEmptyItem)
  | _ => (Value.str "", some AvroError.ErrBranchNode)

/-- Outcome of a typed extractor: a normal return of `(value, error)`, or the
run-time panic raised by a failed single-value type assertion `i.(T)`. -/
inductive Outcome (α : Type) where
  | ret (val : α) (err : Option AvroError)
  | typePanic
  deriving DecidableEq, Repr

/-- The type assertion `i.(string)`. -/
def assertString : Value → Option String
  | Value.str s => some s
  | _ => none

/-- The type assertion `i.(int64)`. -/
def assertInt64 : Value → Option Int
  | Value.long n => some n
  | _ => none

/-- The type assertion `i.(bool)`. -/
def assertBool : Value → Option Bool
  | Value.bool b => some b
  | _ => none

/-- The type assertion `i.(float32)`. -/
def assertFloat32 : Value → Option Nat
  | Value.float32 x => some x
  | _ => none

/-- The type assertion `i.(float64)`. -/
def assertFloat64 : Value → Option Nat
  | Value.float64 x => some x
  | _ => none

/-- The type assertion `i.([]byte)`. -/
def assertBytes : Value → Option (Option (List Nat))
  | Value.bytes b => some b
  | _ => none

/-- Common shape of the six typed extractors: call `extractAvroInterface`,
return the zero value with the error if there is one, otherwise return the
type-asserted payload. -/
def extractTyped {α : Type} (zero : α) (assert : Value → Option α)
    (typeName : String) (item : Value) : Outcome α :=
  match extractAvroInterface item typeName with
  | (_, some err) => Outcome.ret zero (some err)
  | (i, none) =>
    match assert i with
    | some x => Outcome.ret x none
    | none => Outcome.typePanic

/-- The function `ExtractAvroString`. -/
def ExtractAvroString (item : Value) : Outcome String :=
  extractTyped "" assertString "string" item

/-- The function `ExtractAvroLong`. -/
def ExtractAvroLong (item : Value) : Outcome Int :=
  extractTyped 0 assertInt64 "long" item

/-- The function `ExtractAvroBool`. -/
def ExtractAvroBool (item : Value) : Outcome Bool :=
  extractTyped false assertBool "boolean" item

/-- The function `ExtractAvroFloat32`; the zero value is the bit pattern 0. -/
def ExtractAvroFloat32 (item : Value) : Outcome Nat :=
  extractTyped 0 assertFloat32 "float" item

/-- The function `ExtractAvroFloat64`; the zero value is the bit pattern 0. -/
def ExtractAvroFloat64 (item : Value) : Outcome Nat :=
  extractTyped 0 assertFloat64 "double" item

/-- The function `ExtractAvroBytes`; the zero value is the nil slice. -/
def ExtractAvroBytes (item : Value) : Outcome (Option (List Nat)) :=
  extractTyped none assertBytes "bytes" item

/-- A value that is not the nil interface and whose dynamic type is not
`map[string]interface{}`. -/
def notStringMap : Value → Prop
  | Value.nil => False
  | Value.map _ => False
  | _ => True

/-- The error is one of the four kinds `extractAvroInterface` can produce for
the expected tag. -/
def inTaxonomy (typeName : String) (e : AvroError) : Prop :=
  e = AvroError.ErrNilItem ∨ e = AvroError.ErrBranchNode ∨ e = AvroError.ErrEmptyItem
    ∨ ∃ k : String, k ≠ typeName ∧ e = AvroError.errorf (mismatchMsg k typeName)

/-- The input on which a typed extractor with the given tag and type assertion
panics: a mapping whose first visited key is the tag and whose payload fails
the assertion. -/
def panicInput {α : Type} (assert : Value → Option α) (typeName : String)
    (item : Value) : Prop :=
  ∃ (v : Value) (rest : List (String × Value)),
    item = Value.map ((typeName, v) :: rest) ∧ assert v = none

end Avro

/-! ## Part 2. `main.go`, `benchmark`: the worker goroutines -/

namespace Benchmark

/-- What the collaborators do with one element of `foundObjects` when a worker
processes it.  `opens` : `NewReader(ctx)` returns a nil error.  `decoderOk` :
`goavro.NewOCFReader(r)` returns a nil error.  `reads` : one entry for every
call of `avroReader.Scan()` that returns `true`, in order, saying whether the
`avroReader.Read()` that follows returns a nil error; after the last entry
`Scan()` returns `false` (end of the container, or a block that cannot be
read). -/
structure Obj where
  opens : Bool
  decoderOk : Bool
  reads : List Bool
  deriving DecidableEq, Repr

/-- Control point of one worker goroutine.  `atClaim` : about to execute
`atomic.AddInt64(&ix, 1)` (loop initialisation or loop post statement, both are
the same call followed by the same test).  `scanning fix rest` : inside
`for avroReader.Scan()` on object `fix`, with `rest` the outcomes still to come.
`finished` : the loop condition `fix < numFoundObjects` was false, the worker
logged "thread finished" and called `wg.Done()`. -/
inductive Pc where
  | atClaim
  | scanning (fix : Nat) (rest : List Bool)
  | finished
  deriving DecidableEq, Repr

/-- Whether the process is alive.  `fatal msg` : a logrus `Fatal` call logged
`msg` and exited the process.  `indexPanic` : `foundObjects[fix]` was evaluated
with `fix` outside the slice. -/
inductive Status where
  | running
  | fatal (msg : String)
  | indexPanic
  deriving DecidableEq, Repr

/-- Shared memory of the worker goroutines of `benchmark`, with three
observation logs.  `ix` is the `int64` counter, `linesRead` the `[]uint64` of
per-worker counters.  `claimed` lists, oldest first, the pairs `(tid, fix)` for
which the loop condition `fix < numFoundObjects` held; `closed` lists the
objects whose stream got `rc.Close()`; `errorsLogged` counts the entries
logged at level Error. -/
structure State where
  ix : Int
  pcs : List Pc
  linesRead : List Nat
  claimed : List (Nat × Int)
  closed : List Nat
  errorsLogged : Nat
  status : Status
  deriving DecidableEq, Repr

/-- Two's complement wrap-around of an `int64` result. -/
def wrapInt64 (x : Int) : Int := (x + 2 ^ 63) % 2 ^ 64 - 2 ^ 63

/-- The statement `linesRead[tid]++` on a `[]uint64`. -/
def incLines (linesRead : List Nat) (tid : Nat) : List Nat :=
  linesRead.set tid ((linesRead.getD tid 0 + 1) % 2 ^ 64)

/-- The state when the worker goroutines are started: `ix := int64(-1)`,
`linesRead := make([]uint64, threads)`, every worker in front of its loop. -/
def init (threads : Nat) : State :=
  { ix := -1
    pcs := List.replicate threads Pc.atClaim
    linesRead := List.replicate threads 0
    claimed := []
    closed := []
    errorsLogged := 0
    status := Status.running }

/-- The element `foundObjects[fix]` for an `int64` index; `none` is the
index-out-of-range panic. -/
def objAt (foundObjects : List Obj) (fix : Int) : Option Obj :=
  if 0 ≤ fix then foundObjects[fix.toNat]? else none

/-- One step of worker `tid`.  At `atClaim` the step is the atomic add-and-fetch
of `ix` followed by the loop condition `fix < numFoundObjects` and, when it
holds, the opening of the stream and the construction of the decoder.  At
`scanning` the step is one iteration of `for avroReader.Scan()`, or, when
`Scan()` is false or `Read()` fails, the exit from that loop with `rc.Close()`.
`none` : the worker cannot move (no such worker, worker finished, process
gone). -/
def step (foundObjects : List Obj) (s : State) (tid : Nat) : Option State :=
  match s.status with
  | Status.running =>
    match s.pcs[tid]? with
    | some Pc.atClaim =>
      let fix := wrapInt64 (s.ix + 1)
      if fix < (foundObjects.length : Int) then
        let s1 := { s with ix := fix, claimed := s.claimed ++ [(tid, fix)] }
        match objAt foundObjects fix with
        | none => some { s1 with status := Status.indexPanic }
        | some o =>
          if o.opens = false then
            some { s1 with status := Status.fatal "failed to open file" }
          else if o.decoderOk = false then
            some { s1 with status := Status.fatal "failed to read Avro from file" }
          else
            some { s1 with pcs := s.pcs.set tid (Pc.scanning fix.toNat o.reads) }
      else
        some { s with ix := fix, pcs := s.pcs.set tid Pc.finished }
    | some (Pc.scanning fix (r :: rest)) =>
      if r = true then
        some { s with linesRead := incLines s.linesRead tid,
                      pcs := s.pcs.set tid (Pc.scanning fix rest) }
      else
        some { s with errorsLogged := s.errorsLogged + 1,
                      closed := s.closed ++ [fix],
                      pcs := s.pcs.set tid Pc.atClaim }
    | some (Pc.scanning fix []) =>
      some { s with closed := s.closed ++ [fix], pcs := s.pcs.set tid Pc.atClaim }
    | some Pc.finished => none
    | none => none
  | _ => none

/-- An interleaving: the workers named in the schedule step one after the
other.  `none` : some worker named in the schedule could not move. -/
def run (foundObjects : List Obj) (s : State) : List Nat → Option State
  | [] => some s
  | tid :: rest =>
    match step foundObjects s tid with
    | some s1 => run foundObjects s1 rest
    | none => none

/-- The worker has left its loop. -/
def Pc.isFinished : Pc → Bool
  | Pc.finished => true
  | _ => false

/-- The condition under which `wg.Wait()` returns: every worker has left its
loop. -/
def allFinished (s : State) : Bool := s.pcs.all Pc.isFinished

/-- An object whose stream opens, whose decoder constructs and whose records all
read without error. -/
def Obj.clean (o : Obj) : Bool := o.opens && o.decoderOk && o.reads.all id

/-- Total number of records of an object list. -/
def totalRecords (foundObjects : List Obj) : Nat :=
  (foundObjects.map (fun o => o.reads.length)).sum

/-- Steps a worker still has to take from its control point before it is back
in front of `atomic.AddInt64`, that call included. -/
def pcWork : Pc → Nat
  | Pc.atClaim => 1
  | Pc.scanning _ rest => rest.length + 2
  | Pc.finished => 0

/-- Upper bound on the steps one object costs: its claim, one step for each
record and the step that leaves the decode loop. -/
def objWork (o : Obj) : Nat := o.reads.length + 2

/-- Upper bound on the length of any interleaving over the object list with
the given number of workers. -/
def stepBound (foundObjects : List Obj) (threads : Nat) : Nat :=
  threads + (foundObjects.map objWork).sum

/-- Contribution of a worker to the number of workers that have left their
loop: 1 for `finished`, 0 otherwise. -/
def finInd (p : Pc) : Nat := if p.isFinished then 1 else 0

/-- Number of workers that have left their loop. -/
def finCount (pcs : List Pc) : Nat := (pcs.map finInd).sum

/-- Number of `atomic.AddInt64(&ix, 1)` calls made so far, read off the
counter: `ix + 1`. -/
def claimsMade (s : State) : Nat := (s.ix + 1).toNat

/-- Upper bound on the steps still to come: the work of every worker at its
control point plus the work of every object not yet claimed. -/
def remaining (objs : List Obj) (s : State) : Nat :=
  (s.pcs.map pcWork).sum + ((objs.drop (claimsMade s)).map objWork).sum

/-- Number of failing `Read()` calls a worker still has in front of it in its
current object. -/
def pcDirt : Pc → Nat
  | Pc.scanning _ rest => rest.count false
  | _ => 0

/-- Number of `Scan()`/`Read()` pairs a worker still has in front of it in its
current object. -/
def pcPending : Pc → Nat
  | Pc.scanning _ rest => rest.length
  | _ => 0

/-- Invariant of the record count over an object list without failures: the
process is alive, no worker has a failing read in front of it, and the records
counted, the records pending in the objects being decoded and the records of
the objects not yet claimed add up to the total. -/
structure CountInv (objs : List Obj) (s : State) : Prop where
  running : s.status = Status.running
  clean : (s.pcs.map pcDirt).sum = 0
  total : s.linesRead.sum + (s.pcs.map pcPending).sum
      + ((objs.drop (claimsMade s)).map (fun o => o.reads.length)).sum = totalRecords objs

/-- Invariant of the work distribution: the counter never went below -1, there
is one control point and one line counter for every worker, every add beyond
the object list made one worker leave, a worker has left only after the counter
passed the list, and the indices that passed the bound check are, in order,
`0, 1, ...` up to the counter or the end of the list. -/
structure Inv (objs : List Obj) (threads : Nat) (s : State) : Prop where
  ix_ge : -1 ≤ s.ix
  pcs_len : s.pcs.length = threads
  lines_len : s.linesRead.length = threads
  made_le : claimsMade s ≤ objs.length + finCount s.pcs
  fin_ge : 0 < finCount s.pcs → objs.length < claimsMade s
  claimed_eq : s.claimed.map Prod.snd
    = (List.range (min (claimsMade s) objs.length)).map Int.ofNat
  claimed_tid : ∀ p ∈ s.claimed, p.1 < threads
  no_panic : s.status ≠ Status.indexPanic

end Benchmark

/-! ## Part 3. `main.go`, `benchmark`: the ticker goroutine -/

namespace Ticker

/-- Local variables of the ticker goroutine that survive a tick: `lastLines`
(`uint64`) and `ewrLps` (a `float64`, here an exact rational). -/
structure Agg where
  lastLines : Nat
  ewrLps : ℚ

/-- The variables before the first tick: `lastLines := uint64(0)`,
`ewrLps := 0.0`. -/
def Agg.start : Agg := { lastLines := 0, ewrLps := 0 }

/-- The sum `totalLines` of the per-worker counters in `uint64` arithmetic:
`linesRead[0]`, then the others added in order.  `none` : `linesRead[0]` on an
empty slice. -/
def totalLines : List Nat → Option Nat
  | [] => none
  | x :: rest => some (rest.foldl (fun t y => (t + y) % 2 ^ 64) x)

/-- The value `newLines := totalLines - lastLines` in `uint64` arithmetic. -/
def newLines (total lastLines : Nat) : Nat := (total + 2 ^ 64 - lastLines % 2 ^ 64) % 2 ^ 64

/-- The instantaneous rate `lps` of a tick: `float64(newLines)` divided by the
seconds elapsed since the previous tick. -/
def lps (a : Agg) (total : Nat) (elapsed : ℚ) : ℚ := (newLines total a.lastLines : ℚ) / elapsed

/-- The update of `ewrLps` in a tick. -/
def ewrUpdate (ewrLps rate : ℚ) : ℚ :=
  if ewrLps = 0 then rate else (9 / 10) * ewrLps + (1 / 10) * rate

/-- One tick of the ticker goroutine, given the counters it reads and the
seconds elapsed. -/
def tick (a : Agg) (linesRead : List Nat) (elapsed : ℚ) : Option Agg :=
  match totalLines linesRead with
  | none => none
  | some total =>
    some { lastLines := total, ewrLps := ewrUpdate a.ewrLps (lps a total elapsed) }

/-- A sequence of ticks, each with the counters read and the seconds elapsed. -/
def ticks (a : Agg) : List (List Nat × ℚ) → Option Agg
  | [] => some a
  | (linesRead, elapsed) :: rest =>
    match tick a linesRead elapsed with
    | some a1 => ticks a1 rest
    | none => none

end Ticker

/-! ## Part 4. Properties of `avro/utils.go` -/

namespace Avro

theorem extractTyped_of_error {α : Type} (zero : α) (assert : Value → Option α)
    (typeName : String) (item : Value) (p : Value) (e : AvroError)
    (h : extractAvroInterface item typeName = (p, some e)) :
    extractTyped zero assert typeName item = Outcome.ret zero (some e) := by
  simp [extractTyped, h]

theorem extractTyped_of_payload {α : Type} (zero : α) (assert : Value → Option α)
    (typeName : String) (item : Value) (p : Value) (x : α)
    (h : extractAvroInterface item typeName = (p, none)) (hx : assert p = some x) :
    extractTyped zero assert typeName item = Outcome.ret x none := by
  simp [extractTyped, h, hx]

theorem extract_single_match (t : String) (v : Value) :
    extractAvroInterface (Value.map [(t, v)]) t = (v, none) := by
  simp [extractAvroInterface]

theorem extract_first_mismatch (k t : String) (v : Value) (rest : List (String × Value))
    (h : k ≠ t) :
    extractAvroInterface (Value.map ((k, v) :: rest)) t
      = (Value.nil, some (AvroError.errorf (mismatchMsg k t))) := by
  simp [extractAvroInterface, h]

theorem extract_notStringMap (item : Value) (t : String) (h : notStringMap item) :
    extractAvroInterface item t = (Value.str "", some AvroError.ErrBranchNode) := by
  cases item <;> simp_all [extractAvroInterface, notStringMap]

/-- C4: on the single-entry mapping whose key is the expected tag,
`extractAvroInterface` returns the payload and the nil error, and each typed
extractor returns the payload unchanged, with the nil error, when the key is
its tag and the payload has its type. -/
theorem extract_matching_leaf (t : String) (v : Value) :
    extractAvroInterface (Value.map [(t, v)]) t = (v, none)
    ∧ (∀ n : Int, ExtractAvroLong (Value.map [("long", Value.long n)]) = Outcome.ret n none)
    ∧ (∀ s : String,
        ExtractAvroString (Value.map [("string", Value.str s)]) = Outcome.ret s none)
    ∧ (∀ b : Bool, ExtractAvroBool (Value.map [("boolean", Value.bool b)]) = Outcome.ret b none)
    ∧ (∀ x : Nat,
        ExtractAvroFloat32 (Value.map [("float", Value.float32 x)]) = Outcome.ret x none)
    ∧ (∀ x : Nat,
        ExtractAvroFloat64 (Value.map [("double", Value.float64 x)]) = Outcome.ret x none)
    ∧ (∀ b : Option (List Nat),
        ExtractAvroBytes (Value.map [("bytes", Value.bytes b)]) = Outcome.ret b none) := by
  refine ⟨extract_single_match t v, ?_, ?_, ?_, ?_, ?_, ?_⟩
  · intro n
    exact extractTyped_of_payload _ _ _ _ _ _ (extract_single_match _ _) rfl
  · intro s
    exact extractTyped_of_payload _ _ _ _ _ _ (extract_single_match _ _) rfl
  · intro b
    exact extractTyped_of_payload _ _ _ _ _ _ (extract_single_match _ _) rfl
  · intro x
    exact extractTyped_of_payload _ _ _ _ _ _ (extract_single_match _ _) rfl
  · intro x
    exact extractTyped_of_payload _ _ _ _ _ _ (extract_single_match _ _) rfl
  · intro b
    exact extractTyped_of_payload _ _ _ _ _ _ (extract_single_match _ _) rfl

/-- C5: on a single-entry mapping whose key `k` differs from the expected tag
`t`, `extractAvroInterface` returns the nil payload and the error with message
"item was `k`, not `t`"; each typed extractor, whose tag is fixed, returns its
zero value with that error whenever `k` is not its tag. -/
theorem tag_mismatch (k t : String) (v : Value) (h : k ≠ t) :
    extractAvroInterface (Value.map [(k, v)]) t
      = (Value.nil, some (AvroError.errorf ("item was `" ++ k ++ "`, not `" ++ t ++ "`")))
    ∧ (t = "string" → ExtractAvroString (Value.map [(k, v)])
        = Outcome.ret "" (some (AvroError.errorf ("item was `" ++ k ++ "`, not `" ++ t ++ "`"))))
    ∧ (t = "long" → ExtractAvroLong (Value.map [(k, v)])
        = Outcome.ret 0 (some (AvroError.errorf ("item was `" ++ k ++ "`, not `" ++ t ++ "`"))))
    ∧ (t = "boolean" → ExtractAvroBool (Value.map [(k, v)])
        = Outcome.ret false (some (AvroError.errorf ("item was `" ++ k ++ "`, not `" ++ t ++ "`"))))
    ∧ (t = "float" → ExtractAvroFloat32 (Value.map [(k, v)])
        = Outcome.ret 0 (some (AvroError.errorf ("item was `" ++ k ++ "`, not `" ++ t ++ "`"))))
    ∧ (t = "double" → ExtractAvroFloat64 (Value.map [(k, v)])
        = Outcome.ret 0 (some (AvroError.errorf ("item was `" ++ k ++ "`, not `" ++ t ++ "`"))))
    ∧ (t = "bytes" → ExtractAvroBytes (Value.map [(k, v)])
        = Outcome.ret none (some (AvroError.errorf ("item was `" ++ k ++ "`, not `" ++ t ++ "`")))) := by
  refine ⟨extract_first_mismatch k t v [] h, ?_, ?_, ?_, ?_, ?_, ?_⟩ <;> intro ht <;> subst ht
  · exact extractTyped_of_error _ _ _ _ _ _ (extract_first_mismatch k _ v [] h)
  · exact extractTyped_of_error _ _ _ _ _ _ (extract_first_mismatch k _ v [] h)
  · exact extractTyped_of_error _ _ _ _ _ _ (extract_first_mismatch k _ v [] h)
  · exact extractTyped_of_error _ _ _ _ _ _ (extract_first_mismatch k _ v [] h)
  · exact extractTyped_of_error _ _ _ _ _ _ (extract_first_mismatch k _ v [] h)
  · exact extractTyped_of_error _ _ _ _ _ _ (extract_first_mismatch k _ v [] h)

/-- Witness of C5: extracting `{"long": 42}` as "string" fails naming "long"
and "string", in `extractAvroInterface` and in `ExtractAvroString`. -/
theorem tag_mismatch_witness :
    "long" ≠ "string"
    ∧ extractAvroInterface (Value.map [("long", Value.long 42)]) "string"
      = (Value.nil, some (AvroError.errorf "item was `long`, not `string`"))
    ∧ ExtractAvroString (Value.map [("long", Value.long 42)])
      = Outcome.ret "" (some (AvroError.errorf "item was `long`, not `string`")) :=
  ⟨by decide, (tag_mismatch "long" "string" (Value.long 42) (by decide)).1,
    (tag_mismatch "long" "string" (Value.long 42) (by decide)).2.1 rfl⟩

/-- C6, the code at the failing input: the two-entry mapping
`{"long": 42, "name": "x"}`, an internal node of the data tree, extracted as
"long" is not rejected with `ErrBranchNode`, the error `utils.go` documents for
such a node.  With "long" visited first the payload is returned with the nil
error; with "name" visited first the result is the tag-mismatch error; the
outcome depends on the order of the range loop. -/
theorem multi_entry_not_branch_error :
    extractAvroInterface
        (Value.map [("long", Value.long 42), ("name", Value.str "x")]) "long"
      = (Value.long 42, none)
    ∧ extractAvroInterface
        (Value.map [("name", Value.str "x"), ("long", Value.long 42)]) "long"
      = (Value.nil, some (AvroError.errorf "item was `name`, not `long`"))
    ∧ (extractAvroInterface
        (Value.map [("long", Value.long 42), ("name", Value.str "x")]) "long").2
      ≠ some AvroError.ErrBranchNode
    ∧ (extractAvroInterface
        (Value.map [("name", Value.str "x"), ("long", Value.long 42)]) "long").2
      ≠ some AvroError.ErrBranchNode := by
  refine ⟨rfl, rfl, ?_, ?_⟩ <;> simp [extractAvroInterface]

/-- The half of C6 the code satisfies: for every expected tag, a non-nil value
whose dynamic type is not `map[string]interface{}` makes `extractAvroInterface`
fail with `ErrBranchNode`, and every typed extractor returns its zero value
with `ErrBranchNode`. -/
theorem non_map_is_branch_error (item : Value) (t : String) (h : notStringMap item) :
    (extractAvroInterface item t).2 = some AvroError.ErrBranchNode
    ∧ ExtractAvroString item = Outcome.ret "" (some AvroError.ErrBranchNode)
    ∧ ExtractAvroLong item = Outcome.ret 0 (some AvroError.ErrBranchNode)
    ∧ ExtractAvroBool item = Outcome.ret false (some AvroError.ErrBranchNode)
    ∧ ExtractAvroFloat32 item = Outcome.ret 0 (some AvroError.ErrBranchNode)
    ∧ ExtractAvroFloat64 item = Outcome.ret 0 (some AvroError.ErrBranchNode)
    ∧ ExtractAvroBytes item = Outcome.ret none (some AvroError.ErrBranchNode) := by
  refine ⟨?_, ?_, ?_, ?_, ?_, ?_, ?_⟩
  · rw [extract_notStringMap item t h]
  · exact extractTyped_of_error _ _ _ _ _ _ (extract_notStringMap item _ h)
  · exact extractTyped_of_error _ _ _ _ _ _ (extract_notStringMap item _ h)
  · exact extractTyped_of_error _ _ _ _ _ _ (extract_notStringMap item _ h)
  · exact extractTyped_of_error _ _ _ _ _ _ (extract_notStringMap item _ h)
  · exact extractTyped_of_error _ _ _ _ _ _ (extract_notStringMap item _ h)
  · exact extractTyped_of_error _ _ _ _ _ _ (extract_notStringMap item _ h)

/-- The non-map half of C6 at the Go integer 42 extracted as "long". -/
theorem non_map_is_branch_error_witness :
    notStringMap (Value.int 42)
    ∧ (extractAvroInterface (Value.int 42) "long").2 = some AvroError.ErrBranchNode
    ∧ ExtractAvroLong (Value.int 42) = Outcome.ret 0 (some AvroError.ErrBranchNode) :=
  ⟨trivial, (non_map_is_branch_error (Value.int 42) "long" trivial).1,
    (non_map_is_branch_error (Value.int 42) "long" trivial).2.2.1⟩

/-- C7: for every expected tag, the nil interface makes `extractAvroInterface`
fail with exactly `ErrNilItem` and a mapping with zero entries makes it fail
with exactly `ErrEmptyItem`, both with the nil payload; in both cases every
typed extractor returns its zero value and that same error. -/
theorem absent_payload_errors (t : String) :
    extractAvroInterface Value.nil t = (Value.nil, some AvroError.ErrNilItem)
    ∧ extractAvroInterface (Value.map []) t = (Value.nil, some AvroError.ErrEmptyItem)
    ∧ ExtractAvroString Value.nil = Outcome.ret "" (some AvroError.ErrNilItem)
    ∧ ExtractAvroLong Value.nil = Outcome.ret 0 (some AvroError.ErrNilItem)
    ∧ ExtractAvroBool Value.nil = Outcome.ret false (some AvroError.ErrNilItem)
    ∧ ExtractAvroFloat32 Value.nil = Outcome.ret 0 (some AvroError.ErrNilItem)
    ∧ ExtractAvroFloat64 Value.nil = Outcome.ret 0 (some AvroError.ErrNilItem)
    ∧ ExtractAvroBytes Value.nil = Outcome.ret none (some AvroError.ErrNilItem)
    ∧ ExtractAvroString (Value.map []) = Outcome.ret "" (some AvroError.ErrEmptyItem)
    ∧ ExtractAvroLong (Value.map []) = Outcome.ret 0 (some AvroError.ErrEmptyItem)
    ∧ ExtractAvroBool (Value.map []) = Outcome.ret false (some AvroError.ErrEmptyItem)
    ∧ ExtractAvroFloat32 (Value.map []) = Outcome.ret 0 (some AvroError.ErrEmptyItem)
    ∧ ExtractAvroFloat64 (Value.map []) = Outcome.ret 0 (some AvroError.ErrEmptyItem)
    ∧ ExtractAvroBytes (Value.map []) = Outcome.ret none (some AvroError.ErrEmptyItem) := by
  refine ⟨rfl, rfl, rfl, rfl, rfl, rfl, rfl, rfl, rfl, rfl, rfl, rfl, rfl, rfl⟩

theorem extractAvroInterface_error_inTaxonomy (item : Value) (t : String) (p : Value)
    (e : AvroError) (h : extractAvroInterface item t = (p, some e)) : inTaxonomy t e := by
  unfold inTaxonomy
  cases item with
  | map entries =>
    cases entries with
    | nil =>
      simp [extractAvroInterface] at h
      exact Or.inr (Or.inr (Or.inl h.2.symm))
    | cons kv rest =>
      obtain ⟨k, v⟩ := kv
      by_cases hk : k = t
      · simp [extractAvroInterface, hk] at h
      · simp [extractAvroInterface, hk] at h
        exact Or.inr (Or.inr (Or.inr ⟨k, hk, h.2.symm⟩))
  | nil =>
    simp [extractAvroInterface] at h
    exact Or.inl h.2.symm
  | _ =>
    simp [extractAvroInterface] at h
    exact Or.inr (Or.inl h.2.symm)

theorem extractAvroInterface_payload (item : Value) (t : String) (p : Value)
    (h : extractAvroInterface item t = (p, none)) :
    ∃ rest : List (String × Value), item = Value.map ((t, p) :: rest) := by
  cases item with
  | map entries =>
    cases entries with
    | nil => simp [extractAvroInterface] at h
    | cons kv rest =>
      obtain ⟨k, v⟩ := kv
      by_cases hk : k = t
      · simp [extractAvroInterface, hk] at h
        exact ⟨rest, by rw [hk, h]⟩
      · simp [extractAvroInterface, hk] at h
  | _ => simp [extractAvroInterface] at h

theorem extractTyped_cases {α : Type} (zero : α) (assert : Value → Option α)
    (typeName : String) (item : Value) :
    (extractTyped zero assert typeName item = Outcome.typePanic
        ↔ panicInput assert typeName item)
    ∧ (¬ panicInput assert typeName item →
        (∃ (v : Value) (rest : List (String × Value)) (x : α),
            item = Value.map ((typeName, v) :: rest) ∧ assert v = some x
            ∧ extractTyped zero assert typeName item = Outcome.ret x none)
        ∨ (∃ e : AvroError, inTaxonomy typeName e
            ∧ extractTyped zero assert typeName item = Outcome.ret zero (some e))) := by
  rcases hres : extractAvroInterface item typeName with ⟨p, _ | e⟩
  · obtain ⟨rest, hitem⟩ := extractAvroInterface_payload item typeName p hres
    cases hx : assert p with
    | none =>
      have hp : panicInput assert typeName item := ⟨p, rest, hitem, hx⟩
      refine ⟨⟨fun _ => hp, fun _ => ?_⟩, fun hn => absurd hp hn⟩
      simp [extractTyped, hres, hx]
    | some x =>
      have hr : extractTyped zero assert typeName item = Outcome.ret x none :=
        extractTyped_of_payload zero assert typeName item p x hres hx
      refine ⟨⟨fun hpanic => ?_, fun hp => ?_⟩, fun _ => Or.inl ⟨p, rest, x, hitem, hx, hr⟩⟩
      · rw [hr] at hpanic
        cases hpanic
      · obtain ⟨v, rest1, hitem1, hv⟩ := hp
        rw [hitem] at hitem1
        injection hitem1 with hlist
        injection hlist with hhead _
        injection hhead with _ hpv
        rw [hpv, hv] at hx
        cases hx
  · have hr : extractTyped zero assert typeName item = Outcome.ret zero (some e) :=
      extractTyped_of_error zero assert typeName item p e hres
    have ht : inTaxonomy typeName e :=
      extractAvroInterface_error_inTaxonomy item typeName p e hres
    refine ⟨⟨fun hpanic => ?_, fun hp => ?_⟩, fun _ => Or.inr ⟨e, ht, hr⟩⟩
    · rw [hr] at hpanic
      cases hpanic
    · obtain ⟨v, rest1, hitem1, _⟩ := hp
      rw [hitem1] at hres
      simp [extractAvroInterface] at hres

/-- C10, as stated, fails: `ExtractAvroLong` on `{"long": "abc"}` does not
return, its type assertion `i.(int64)` panics. -/
theorem extractLong_string_payload_panics :
    ExtractAvroLong (Value.map [("long", Value.str "abc")]) = Outcome.typePanic := by
  rfl

/-- C10, amended: each typed extractor panics in its type assertion exactly on
a mapping whose first visited key is its tag and whose payload has another
dynamic type; on every other input it returns normally, either the typed
payload with the nil error or its zero value with `ErrNilItem`,
`ErrBranchNode`, `ErrEmptyItem` or the tag-mismatch error. -/
theorem typed_extractors_panic_iff (item : Value) :
    ((ExtractAvroString item = Outcome.typePanic ↔ panicInput assertString "string" item)
      ∧ (¬ panicInput assertString "string" item →
          (∃ x, ExtractAvroString item = Outcome.ret x none)
          ∨ (∃ e, inTaxonomy "string" e ∧ ExtractAvroString item = Outcome.ret "" (some e))))
    ∧ ((ExtractAvroLong item = Outcome.typePanic ↔ panicInput assertInt64 "long" item)
      ∧ (¬ panicInput assertInt64 "long" item →
          (∃ x, ExtractAvroLong item = Outcome.ret x none)
          ∨ (∃ e, inTaxonomy "long" e ∧ ExtractAvroLong item = Outcome.ret 0 (some e))))
    ∧ ((ExtractAvroBool item = Outcome.typePanic ↔ panicInput assertBool "boolean" item)
      ∧ (¬ panicInput assertBool "boolean" item →
          (∃ x, ExtractAvroBool item = Outcome.ret x none)
          ∨ (∃ e, inTaxonomy "boolean" e ∧ ExtractAvroBool item = Outcome.ret false (some e))))
    ∧ ((ExtractAvroFloat32 item = Outcome.typePanic ↔ panicInput assertFloat32 "float" item)
      ∧ (¬ panicInput assertFloat32 "float" item →
          (∃ x, ExtractAvroFloat32 item = Outcome.ret x none)
          ∨ (∃ e, inTaxonomy "float" e ∧ ExtractAvroFloat32 item = Outcome.ret 0 (some e))))
    ∧ ((ExtractAvroFloat64 item = Outcome.typePanic ↔ panicInput assertFloat64 "double" item)
      ∧ (¬ panicInput assertFloat64 "double" item →
          (∃ x, ExtractAvroFloat64 item = Outcome.ret x none)
          ∨ (∃ e, inTaxonomy "double" e ∧ ExtractAvroFloat64 item = Outcome.ret 0 (some e))))
    ∧ ((ExtractAvroBytes item = Outcome.typePanic ↔ panicInput assertBytes "bytes" item)
      ∧ (¬ panicInput assertBytes "bytes" item →
          (∃ x, ExtractAvroBytes item = Outcome.ret x none)
          ∨ (∃ e, inTaxonomy "bytes" e ∧ ExtractAvroBytes item = Outcome.ret none (some e)))) := by
  have weaken : ∀ {α : Type} (zero : α) (assert : Value → Option α) (typeName : String),
      ((extractTyped zero assert typeName item = Outcome.typePanic
          ↔ panicInput assert typeName item)
        ∧ (¬ panicInput assert typeName item →
          (∃ x, extractTyped zero assert typeName item = Outcome.ret x none)
          ∨ (∃ e, inTaxonomy typeName e
              ∧ extractTyped zero assert typeName item = Outcome.ret zero (some e)))) := by
    intro α zero assert typeName
    obtain ⟨h1, h2⟩ := extractTyped_cases zero assert typeName item
    refine ⟨h1, fun hn => ?_⟩
    rcases h2 hn with ⟨_, _, x, _, _, hx⟩ | he
    · exact Or.inl ⟨x, hx⟩
    · exact Or.inr he
  exact ⟨weaken _ _ _, weaken _ _ _, weaken _ _ _, weaken _ _ _, weaken _ _ _, weaken _ _ _⟩

/-- Witness of C10 amended: `{"long": 7}` is not a panic input of
`ExtractAvroLong`, which returns on it. -/
theorem typed_extractors_panic_iff_witness :
    ¬ panicInput assertInt64 "long" (Value.map [("long", Value.long 7)])
    ∧ ((∃ x, ExtractAvroLong (Value.map [("long", Value.long 7)]) = Outcome.ret x none)
      ∨ (∃ e, inTaxonomy "long" e
          ∧ ExtractAvroLong (Value.map [("long", Value.long 7)]) = Outcome.ret 0 (some e))) :=
  have hn : ¬ panicInput assertInt64 "long" (Value.map [("long", Value.long 7)]) := by
    rintro ⟨v, rest, hitem, hv⟩
    injection hitem with hlist
    injection hlist with hhead _
    injection hhead with _ hpv
    rw [← hpv] at hv
    cases hv
  ⟨hn, (typed_extractors_panic_iff (Value.map [("long", Value.long 7)])).2.1.2 hn⟩

end Avro

/-! ## Part 5. Properties of the ticker goroutine -/

namespace Ticker

theorem ticks_append (a : Agg) (l1 l2 : List (List Nat × ℚ)) :
    ticks a (l1 ++ l2) = (ticks a l1).bind (fun a1 => ticks a1 l2) := by
  induction l1 generalizing a with
  | nil => simp [ticks]
  | cons o rest ih =>
    obtain ⟨linesRead, elapsed⟩ := o
    simp only [List.cons_append, ticks]
    cases tick a linesRead elapsed with
    | none => simp
    | some a1 => simpa using ih a1

/-- C3, as stated, fails: when the first tick sees no record (rate 0) and the
second tick sees 10 records in one second (rate 10), the smoothed rate after
the second tick is 10, not `0.9 * 0 + 0.1 * 10 = 1`. -/
theorem ewr_restarts_after_zero_rate :
    (ticks Agg.start [([0], 1)]).map Agg.ewrLps = some 0
    ∧ lps { lastLines := 0, ewrLps := 0 } 10 1 = 10
    ∧ (ticks Agg.start [([0], 1), ([10], 1)]).map Agg.ewrLps = some 10
    ∧ (10 : ℚ) ≠ (9 / 10) * 0 + (1 / 10) * 10 := by
  refine ⟨?_, ?_, ?_, ?_⟩ <;>
    norm_num [ticks, tick, totalLines, lps, newLines, ewrUpdate, Agg.start]

/-- C3, amended: after any history of ticks, a further tick with instantaneous
rate `lps` leaves the smoothed rate equal to `0.9 * previous + 0.1 * lps` when
the previous smoothed rate is not zero and equal to `lps` when it is zero; the
latter is the case of the first tick. -/
theorem smoothing_recurrence (obs : List (List Nat × ℚ)) (a : Agg) (linesRead : List Nat)
    (total : Nat) (elapsed : ℚ) (hobs : ticks Agg.start obs = some a)
    (htot : totalLines linesRead = some total) :
    ∃ a1 : Agg, ticks Agg.start (obs ++ [(linesRead, elapsed)]) = some a1
      ∧ (obs = [] → a1.ewrLps = lps Agg.start total elapsed)
      ∧ (a.ewrLps ≠ 0 → a1.ewrLps = (9 / 10) * a.ewrLps + (1 / 10) * lps a total elapsed)
      ∧ (a.ewrLps = 0 → a1.ewrLps = lps a total elapsed) := by
  refine ⟨{ lastLines := total, ewrLps := ewrUpdate a.ewrLps (lps a total elapsed) }, ?_, ?_, ?_, ?_⟩
  · rw [ticks_append, hobs]
    simp [ticks, tick, htot]
  · intro hnil
    subst hnil
    simp only [ticks, Option.some.injEq] at hobs
    subst hobs
    simp [ewrUpdate, Agg.start]
  · intro hne
    simp [ewrUpdate, hne]
  · intro hz
    simp [ewrUpdate, hz]

/-- Witness of C3 amended: after a first tick at rate 5, a tick that sees 3 new
records in one second gives `0.9 * 5 + 0.1 * 3`. -/
theorem smoothing_recurrence_witness :
    ticks Agg.start [([5], 1)] = some { lastLines := 5, ewrLps := 5 }
    ∧ totalLines [6, 2] = some 8
    ∧ ∃ a1 : Agg, ticks Agg.start ([([5], 1)] ++ [([6, 2], 1)]) = some a1
      ∧ a1.ewrLps = (9 / 10) * 5 + (1 / 10) * lps { lastLines := 5, ewrLps := 5 } 8 1 :=
  have hobs : ticks Agg.start [([5], 1)] = some { lastLines := 5, ewrLps := 5 } := by
    norm_num [ticks, tick, totalLines, lps, newLines, ewrUpdate, Agg.start]
  have htot : totalLines [6, 2] = some 8 := by
    norm_num [totalLines]
  ⟨hobs, htot,
    (smoothing_recurrence [([5], 1)] { lastLines := 5, ewrLps := 5 } [6, 2] 8 1 hobs htot).imp
      (fun _ h => ⟨h.1, h.2.2.1 (by norm_num)⟩)⟩

end Ticker

/-! ## Part 6. Properties of the worker goroutines -/

namespace Benchmark

theorem sum_map_set {α : Type} (f : α → Nat) (l : List α) (i : Nat) (x y : α)
    (h : l[i]? = some y) :
    ((l.set i x).map f).sum + f y = (l.map f).sum + f x := by
  induction l generalizing i with
  | nil => simp at h
  | cons a rest ih =>
    cases i with
    | zero =>
      simp only [List.getElem?_cons_zero, Option.some.injEq] at h
      subst h
      simp only [List.set, List.map, List.sum_cons]
      omega
    | succ j =>
      simp only [List.getElem?_cons_succ] at h
      have := ih j h
      simp only [List.set, List.map, List.sum_cons]
      omega

theorem le_sum_map {α : Type} (f : α → Nat) (l : List α) (i : Nat) (y : α)
    (h : l[i]? = some y) : f y ≤ (l.map f).sum := by
  induction l generalizing i with
  | nil => simp at h
  | cons a rest ih =>
    cases i with
    | zero =>
      simp only [List.getElem?_cons_zero, Option.some.injEq] at h
      subst h
      simp only [List.map, List.sum_cons]
      omega
    | succ j =>
      simp only [List.getElem?_cons_succ] at h
      have := ih j h
      simp only [List.map, List.sum_cons]
      omega

theorem finCount_le_length (pcs : List Pc) : finCount pcs ≤ pcs.length := by
  induction pcs with
  | nil => simp [finCount]
  | cons p rest ih =>
    have hp : finInd p ≤ 1 := by
      unfold finInd
      split <;> omega
    simp only [finCount, List.map, List.sum_cons, List.length_cons] at ih ⊢
    omega

theorem finCount_set (pcs : List Pc) (tid : Nat) (p q : Pc) (h : pcs[tid]? = some p) :
    finCount (pcs.set tid q) + finInd p = finCount pcs + finInd q :=
  sum_map_set finInd pcs tid q p h

theorem wrapInt64_natCast (c : Nat) (h : c < 2 ^ 63) : wrapInt64 (c : Int) = (c : Int) := by
  unfold wrapInt64
  omega

theorem drop_map_sum_le {α : Type} (f : α → Nat) (l : List α) (c : Nat) :
    ((l.drop (c + 1)).map f).sum ≤ ((l.drop c).map f).sum := by
  by_cases h : c < l.length
  · rw [List.drop_eq_getElem_cons h]
    simp only [List.map, List.sum_cons]
    omega
  · have h1 : l.drop c = [] := List.drop_eq_nil_of_le (by omega)
    have h2 : l.drop (c + 1) = [] := List.drop_eq_nil_of_le (by omega)
    rw [h1, h2]

theorem claimsMade_succ (s s1 : State)
    (h : s1.ix = (claimsMade s : Int)) : claimsMade s1 = claimsMade s + 1 := by
  unfold claimsMade at h ⊢
  omega

theorem claimsMade_same (s s1 : State) (h : s1.ix = s.ix) : claimsMade s1 = claimsMade s := by
  unfold claimsMade
  rw [h]

/-- A claim whose index passes the bound check keeps the invariant, whatever
the worker does next with the object. -/
theorem inv_claim_pass (objs : List Obj) (threads : Nat) (s s1 : State) (tid : Nat)
    (hinv : Inv objs threads s) (hc : claimsMade s < objs.length) (htl : tid < threads)
    (e_ix : s1.ix = (claimsMade s : Int)) (e_len : s1.pcs.length = s.pcs.length)
    (e_fin : finCount s1.pcs = finCount s.pcs) (e_lines : s1.linesRead = s.linesRead)
    (e_cl : s1.claimed = s.claimed ++ [(tid, (claimsMade s : Int))])
    (e_st : s1.status ≠ Status.indexPanic) : Inv objs threads s1 := by
  obtain ⟨hix, hpl, hll, hle, hfin, hcl, htid, _⟩ := hinv
  have hm := claimsMade_succ s s1 e_ix
  refine ⟨by omega, by omega, by rw [e_lines]; exact hll, by omega, ?_, ?_, ?_, e_st⟩
  · intro h0
    rw [e_fin] at h0
    have := hfin h0
    omega
  · rw [e_cl, hm, List.map_append, hcl, Nat.min_eq_left (by omega), Nat.min_eq_left (by omega),
      List.range_succ, List.map_append]
    rfl
  · intro p hp
    rw [e_cl] at hp
    rcases List.mem_append.mp hp with hp | hp
    · exact htid p hp
    · simp only [List.mem_singleton] at hp
      rw [hp]
      exact htl

/-- A claim whose index fails the bound check, after which the worker leaves
its loop, keeps the invariant. -/
theorem inv_claim_fail (objs : List Obj) (threads : Nat) (s s1 : State) (tid : Nat)
    (hinv : Inv objs threads s) (hc : ¬ claimsMade s < objs.length)
    (hpc : s.pcs[tid]? = some Pc.atClaim)
    (e_ix : s1.ix = (claimsMade s : Int)) (e_pcs : s1.pcs = s.pcs.set tid Pc.finished)
    (e_lines : s1.linesRead = s.linesRead) (e_cl : s1.claimed = s.claimed)
    (e_st : s1.status = s.status) : Inv objs threads s1 := by
  obtain ⟨hix, hpl, hll, hle, hfin, hcl, htid, hnp⟩ := hinv
  have hm := claimsMade_succ s s1 e_ix
  have hset := finCount_set s.pcs tid Pc.atClaim Pc.finished hpc
  simp only [finInd, Pc.isFinished, if_true] at hset
  simp only [Bool.false_eq_true, if_false] at hset
  refine ⟨by omega, by rw [e_pcs, List.length_set]; exact hpl, by rw [e_lines]; exact hll,
    by rw [e_pcs]; omega, fun _ => by omega, ?_, by rw [e_cl]; exact htid,
    by rw [e_st]; exact hnp⟩
  rw [e_cl, hcl, hm, Nat.min_eq_right (by omega), Nat.min_eq_right (by omega)]

/-- A step inside the decode loop leaves the counter and the claims alone and
keeps the invariant. -/
theorem inv_local (objs : List Obj) (threads : Nat) (s s1 : State)
    (hinv : Inv objs threads s)
    (e_ix : s1.ix = s.ix) (e_len : s1.pcs.length = s.pcs.length)
    (e_fin : finCount s1.pcs = finCount s.pcs)
    (e_lines : s1.linesRead.length = s.linesRead.length) (e_cl : s1.claimed = s.claimed)
    (e_st : s1.status = s.status) : Inv objs threads s1 := by
  obtain ⟨hix, hpl, hll, hle, hfin, hcl, htid, hnp⟩ := hinv
  have hm := claimsMade_same s s1 e_ix
  exact ⟨by omega, by omega, by omega, by omega, fun h0 => by rw [e_fin] at h0; have := hfin h0; omega,
    by rw [e_cl, hm]; exact hcl, by rw [e_cl]; exact htid, by rw [e_st]; exact hnp⟩

/-- In a state that satisfies the invariant the atomic add does not wrap: the
value a worker fetches is the number of adds made before. -/
theorem claim_fix (objs : List Obj) (threads : Nat) (s : State) (tid : Nat)
    (hMN : objs.length + threads ≤ 2 ^ 63) (hinv : Inv objs threads s)
    (hpc : s.pcs[tid]? = some Pc.atClaim) :
    wrapInt64 (s.ix + 1) = (claimsMade s : Int) := by
  have hix := hinv.ix_ge
  have hpl := hinv.pcs_len
  have hle := hinv.made_le
  have hset := finCount_set s.pcs tid Pc.atClaim Pc.finished hpc
  have hlen := finCount_le_length (s.pcs.set tid Pc.finished)
  simp only [List.length_set, finInd, Pc.isFinished, if_true] at hset hlen
  simp only [Bool.false_eq_true, if_false] at hset
  have h1 : s.ix + 1 = (claimsMade s : Int) := by
    unfold claimsMade
    omega
  rw [h1]
  apply wrapInt64_natCast
  omega

theorem step_inv (objs : List Obj) (threads : Nat) (s s1 : State) (tid : Nat)
    (hMN : objs.length + threads ≤ 2 ^ 63) (hinv : Inv objs threads s)
    (h : step objs s tid = some s1) :
    Inv objs threads s1 ∧ remaining objs s1 < remaining objs s := by
  have hix := hinv.ix_ge
  have hpl := hinv.pcs_len
  cases hst : s.status with
  | running =>
    cases hpc : s.pcs[tid]? with
    | none => simp [step, hst, hpc] at h
    | some p =>
      have htl : tid < threads := by
        rw [← hpl]
        exact (List.getElem?_eq_some_iff.mp hpc).1
      cases p with
      | atClaim =>
        have hfix := claim_fix objs threads s tid hMN hinv hpc
        simp only [step, hst, hpc, hfix] at h
        by_cases hcM : claimsMade s < objs.length
        · have hlt : (claimsMade s : Int) < (objs.length : Int) := by exact_mod_cast hcM
          have ho : objAt objs (claimsMade s : Int) = some objs[claimsMade s] := by
            simp [objAt, hcM]
          have hdrop := List.drop_eq_getElem_cons hcM
          simp only [hlt, if_true, ho] at h
          split at h
          · simp only [Option.some.injEq] at h
            have hinv1 : Inv objs threads s1 :=
              inv_claim_pass objs threads s s1 tid hinv hcM htl (by rw [← h]) (by rw [← h])
                (by rw [← h]) (by rw [← h]) (by rw [← h]) (by rw [← h]; simp)
            refine ⟨hinv1, ?_⟩
            have hm := claimsMade_succ s s1 (by rw [← h])
            have e_pcs : s1.pcs = s.pcs := by rw [← h]
            unfold remaining
            rw [hm, hdrop, e_pcs]
            simp only [List.map, List.sum_cons, objWork]
            omega
          · split at h
            · simp only [Option.some.injEq] at h
              have hinv1 : Inv objs threads s1 :=
                inv_claim_pass objs threads s s1 tid hinv hcM htl (by rw [← h]) (by rw [← h])
                  (by rw [← h]) (by rw [← h]) (by rw [← h]) (by rw [← h]; simp)
              refine ⟨hinv1, ?_⟩
              have hm := claimsMade_succ s s1 (by rw [← h])
              have e_pcs : s1.pcs = s.pcs := by rw [← h]
              unfold remaining
              rw [hm, hdrop, e_pcs]
              simp only [List.map, List.sum_cons, objWork]
              omega
            · simp only [Option.some.injEq, Int.toNat_ofNat] at h
              have hset2 := finCount_set s.pcs tid Pc.atClaim
                (Pc.scanning (claimsMade s) objs[claimsMade s].reads) hpc
              have hwork := sum_map_set pcWork s.pcs tid
                (Pc.scanning (claimsMade s) objs[claimsMade s].reads) Pc.atClaim hpc
              simp only [finInd, Pc.isFinished, pcWork, Bool.false_eq_true, if_false]
                at hset2 hwork
              have e_pcs : s1.pcs
                  = s.pcs.set tid (Pc.scanning (claimsMade s) objs[claimsMade s].reads) := by
                rw [← h]
              have hinv1 : Inv objs threads s1 :=
                inv_claim_pass objs threads s s1 tid hinv hcM htl (by rw [← h])
                  (by rw [e_pcs, List.length_set]) (by rw [e_pcs]; omega) (by rw [← h])
                  (by rw [← h]) (by rw [← h]; simp)
              refine ⟨hinv1, ?_⟩
              have hm := claimsMade_succ s s1 (by rw [← h])
              unfold remaining
              rw [hm, hdrop, e_pcs]
              simp only [List.map, List.sum_cons, objWork]
              omega
        · have hlt : ¬ ((claimsMade s : Int) < (objs.length : Int)) := by
            intro hc
            exact hcM (by exact_mod_cast hc)
          simp only [hlt, if_false, Option.some.injEq] at h
          have e_pcs : s1.pcs = s.pcs.set tid Pc.finished := by rw [← h]
          have hinv1 : Inv objs threads s1 :=
            inv_claim_fail objs threads s s1 tid hinv hcM hpc (by rw [← h]) e_pcs (by rw [← h])
              (by rw [← h]) (by rw [← h]; exact hst.symm)
          refine ⟨hinv1, ?_⟩
          have hm := claimsMade_succ s s1 (by rw [← h])
          have hwork := sum_map_set pcWork s.pcs tid Pc.finished Pc.atClaim hpc
          simp only [pcWork] at hwork
          have hd := drop_map_sum_le objWork objs (claimsMade s)
          unfold remaining
          rw [hm, e_pcs]
          omega
      | scanning fix rest =>
        cases rest with
        | nil =>
          simp only [step, hst, hpc, Option.some.injEq] at h
          have e_pcs : s1.pcs = s.pcs.set tid Pc.atClaim := by rw [← h]
          have hset2 := finCount_set s.pcs tid (Pc.scanning fix []) Pc.atClaim hpc
          have hwork := sum_map_set pcWork s.pcs tid Pc.atClaim (Pc.scanning fix []) hpc
          simp only [finInd, Pc.isFinished, pcWork, Bool.false_eq_true, if_false,
            List.length_nil] at hset2 hwork
          have hinv1 : Inv objs threads s1 :=
            inv_local objs threads s s1 hinv (by rw [← h]) (by rw [e_pcs, List.length_set])
              (by rw [e_pcs]; omega) (by rw [← h]) (by rw [← h]) (by rw [← h]; exact hst.symm)
          refine ⟨hinv1, ?_⟩
          have hm := claimsMade_same s s1 (by rw [← h])
          unfold remaining
          rw [hm, e_pcs]
          omega
        | cons r rest =>
          simp only [step, hst, hpc] at h
          split at h
          · simp only [Option.some.injEq] at h
            have e_pcs : s1.pcs = s.pcs.set tid (Pc.scanning fix rest) := by rw [← h]
            have hset2 := finCount_set s.pcs tid (Pc.scanning fix (r :: rest))
              (Pc.scanning fix rest) hpc
            have hwork := sum_map_set pcWork s.pcs tid (Pc.scanning fix rest)
              (Pc.scanning fix (r :: rest)) hpc
            simp only [finInd, Pc.isFinished, pcWork, Bool.false_eq_true, if_false,
              List.length_cons] at hset2 hwork
            have hinv1 : Inv objs threads s1 :=
              inv_local objs threads s s1 hinv (by rw [← h]) (by rw [e_pcs, List.length_set])
                (by rw [e_pcs]; omega) (by rw [← h]; simp [incLines]) (by rw [← h])
                (by rw [← h]; exact hst.symm)
            refine ⟨hinv1, ?_⟩
            have hm := claimsMade_same s s1 (by rw [← h])
            unfold remaining
            rw [hm, e_pcs]
            omega
          · simp only [Option.some.injEq] at h
            have e_pcs : s1.pcs = s.pcs.set tid Pc.atClaim := by rw [← h]
            have hset2 := finCount_set s.pcs tid (Pc.scanning fix (r :: rest)) Pc.atClaim hpc
            have hwork := sum_map_set pcWork s.pcs tid Pc.atClaim
              (Pc.scanning fix (r :: rest)) hpc
            simp only [finInd, Pc.isFinished, pcWork, Bool.false_eq_true, if_false,
              List.length_cons] at hset2 hwork
            have hinv1 : Inv objs threads s1 :=
              inv_local objs threads s s1 hinv (by rw [← h]) (by rw [e_pcs, List.length_set])
                (by rw [e_pcs]; omega) (by rw [← h]) (by rw [← h])
                (by rw [← h]; exact hst.symm)
            refine ⟨hinv1, ?_⟩
            have hm := claimsMade_same s s1 (by rw [← h])
            unfold remaining
            rw [hm, e_pcs]
            omega
      | finished => simp [step, hst, hpc] at h
  | fatal msg => simp [step, hst] at h
  | indexPanic => simp [step, hst] at h

theorem incLines_sum (l : List Nat) (tid v : Nat) (h : l[tid]? = some v)
    (hv : v + 1 < 2 ^ 64) : (incLines l tid).sum = l.sum + 1 := by
  have hs := sum_map_set id l tid ((v + 1) % 2 ^ 64) v h
  have hg : l.getD tid 0 = v := by
    rw [List.getD_eq_getElem?_getD, h]
    rfl
  simp only [List.map_id, id] at hs
  rw [Nat.mod_eq_of_lt hv] at hs
  unfold incLines
  rw [hg, Nat.mod_eq_of_lt hv]
  omega

theorem all_true_count_false (l : List Bool) (h : l.all id = true) : l.count false = 0 := by
  induction l with
  | nil => rfl
  | cons b rest ih =>
    simp only [List.all_cons, Bool.and_eq_true, id] at h
    rw [h.1, List.count_cons, ih h.2]
    rfl

theorem step_countInv (objs : List Obj) (threads : Nat) (s s1 : State) (tid : Nat)
    (hMN : objs.length + threads ≤ 2 ^ 63) (hclean : ∀ o ∈ objs, o.clean = true)
    (hR : totalRecords objs < 2 ^ 64) (hinv : Inv objs threads s) (hcnt : CountInv objs s)
    (h : step objs s tid = some s1) : CountInv objs s1 := by
  obtain ⟨hst, hdirt, htot⟩ := hcnt
  have hpl := hinv.pcs_len
  have hll := hinv.lines_len
  cases hpc : s.pcs[tid]? with
  | none => simp [step, hst, hpc] at h
  | some p =>
    have htl : tid < threads := by
      rw [← hpl]
      exact (List.getElem?_eq_some_iff.mp hpc).1
    cases p with
    | atClaim =>
      have hfix := claim_fix objs threads s tid hMN hinv hpc
      simp only [step, hst, hpc, hfix] at h
      by_cases hcM : claimsMade s < objs.length
      · have hlt : (claimsMade s : Int) < (objs.length : Int) := by exact_mod_cast hcM
        have ho : objAt objs (claimsMade s : Int) = some objs[claimsMade s] := by
          simp [objAt, hcM]
        have hdrop := List.drop_eq_getElem_cons hcM
        have hoc := hclean objs[claimsMade s] (List.getElem_mem hcM)
        simp only [Obj.clean, Bool.and_eq_true] at hoc
        obtain ⟨⟨hopen, hdec⟩, hreads⟩ := hoc
        simp only [hlt, if_true, ho, hopen, hdec, Bool.true_eq_false, if_false,
          Option.some.injEq, Int.toNat_ofNat] at h
        have e_pcs : s1.pcs
            = s.pcs.set tid (Pc.scanning (claimsMade s) objs[claimsMade s].reads) := by
          rw [← h]
        have e_lines : s1.linesRead = s.linesRead := by rw [← h]
        have hm := claimsMade_succ s s1 (by rw [← h])
        have hd := sum_map_set pcDirt s.pcs tid
          (Pc.scanning (claimsMade s) objs[claimsMade s].reads) Pc.atClaim hpc
        have hp := sum_map_set pcPending s.pcs tid
          (Pc.scanning (claimsMade s) objs[claimsMade s].reads) Pc.atClaim hpc
        simp only [pcDirt, pcPending, all_true_count_false _ hreads] at hd hp
        refine ⟨by rw [← h], by rw [e_pcs]; omega, ?_⟩
        rw [hdrop] at htot
        simp only [List.map, List.sum_cons] at htot
        rw [e_pcs, e_lines, hm]
        omega
      · have hlt : ¬ ((claimsMade s : Int) < (objs.length : Int)) := by
          intro hc
          exact hcM (by exact_mod_cast hc)
        simp only [hlt, if_false, Option.some.injEq] at h
        have e_pcs : s1.pcs = s.pcs.set tid Pc.finished := by rw [← h]
        have e_lines : s1.linesRead = s.linesRead := by rw [← h]
        have hm := claimsMade_succ s s1 (by rw [← h])
        have hd := sum_map_set pcDirt s.pcs tid Pc.finished Pc.atClaim hpc
        have hp := sum_map_set pcPending s.pcs tid Pc.finished Pc.atClaim hpc
        simp only [pcDirt, pcPending] at hd hp
        have h1 : objs.drop (claimsMade s) = [] := List.drop_eq_nil_of_le (by omega)
        have h2 : objs.drop (claimsMade s + 1) = [] := List.drop_eq_nil_of_le (by omega)
        refine ⟨by rw [← h], by rw [e_pcs]; omega, ?_⟩
        rw [h1] at htot
        rw [e_pcs, e_lines, hm, h2]
        omega
    | scanning fix rest =>
      cases rest with
      | nil =>
        simp only [step, hst, hpc, Option.some.injEq] at h
        have e_pcs : s1.pcs = s.pcs.set tid Pc.atClaim := by rw [← h]
        have e_lines : s1.linesRead = s.linesRead := by rw [← h]
        have hm := claimsMade_same s s1 (by rw [← h])
        have hd := sum_map_set pcDirt s.pcs tid Pc.atClaim (Pc.scanning fix []) hpc
        have hp := sum_map_set pcPending s.pcs tid Pc.atClaim (Pc.scanning fix []) hpc
        simp only [pcDirt, pcPending, List.count_nil, List.length_nil] at hd hp
        refine ⟨by rw [← h], by rw [e_pcs]; omega, ?_⟩
        rw [e_pcs, e_lines, hm]
        omega
      | cons r rest =>
        have hle := le_sum_map pcDirt s.pcs tid _ hpc
        have hpe := le_sum_map pcPending s.pcs tid _ hpc
        simp only [pcDirt, pcPending, List.length_cons] at hle hpe
        have hr : r = true := by
          cases r with
          | true => rfl
          | false =>
            simp only [List.count_cons_self] at hle
            omega
        subst hr
        simp only [step, hst, hpc, if_true, Option.some.injEq] at h
        have e_pcs : s1.pcs = s.pcs.set tid (Pc.scanning fix rest) := by rw [← h]
        have e_lines : s1.linesRead = incLines s.linesRead tid := by rw [← h]
        have hm := claimsMade_same s s1 (by rw [← h])
        have hd := sum_map_set pcDirt s.pcs tid (Pc.scanning fix rest)
          (Pc.scanning fix (true :: rest)) hpc
        have hp := sum_map_set pcPending s.pcs tid (Pc.scanning fix rest)
          (Pc.scanning fix (true :: rest)) hpc
        have hcount : (true :: rest).count false = rest.count false := by simp
        simp only [pcDirt, pcPending, List.length_cons, hcount] at hd hp
        have htlen : tid < s.linesRead.length := by omega
        have hv : s.linesRead[tid]? = some s.linesRead[tid] := List.getElem?_eq_getElem htlen
        have hvle := le_sum_map id s.linesRead tid _ hv
        simp only [List.map_id, id] at hvle
        have hsum := incLines_sum s.linesRead tid _ hv (by omega)
        refine ⟨by rw [← h], by rw [e_pcs]; omega, ?_⟩
        rw [e_pcs, e_lines, hm, hsum]
        omega
    | finished => simp [step, hst, hpc] at h

theorem run_inv (objs : List Obj) (threads : Nat) (sched : List Nat) (s s1 : State)
    (hMN : objs.length + threads ≤ 2 ^ 63) (hinv : Inv objs threads s)
    (h : run objs s sched = some s1) :
    Inv objs threads s1 ∧ sched.length + remaining objs s1 ≤ remaining objs s := by
  induction sched generalizing s with
  | nil =>
    simp only [run, Option.some.injEq] at h
    subst h
    exact ⟨hinv, by simp⟩
  | cons tid rest ih =>
    simp only [run] at h
    cases hstep : step objs s tid with
    | none => simp [hstep] at h
    | some s2 =>
      rw [hstep] at h
      obtain ⟨hinv2, hlt⟩ := step_inv objs threads s s2 tid hMN hinv hstep
      obtain ⟨hinv1, hle⟩ := ih s2 hinv2 h
      refine ⟨hinv1, ?_⟩
      simp only [List.length_cons]
      omega

theorem run_countInv (objs : List Obj) (threads : Nat) (sched : List Nat) (s s1 : State)
    (hMN : objs.length + threads ≤ 2 ^ 63) (hclean : ∀ o ∈ objs, o.clean = true)
    (hR : totalRecords objs < 2 ^ 64) (hinv : Inv objs threads s) (hcnt : CountInv objs s)
    (h : run objs s sched = some s1) : CountInv objs s1 := by
  induction sched generalizing s with
  | nil =>
    simp only [run, Option.some.injEq] at h
    subst h
    exact hcnt
  | cons tid rest ih =>
    simp only [run] at h
    cases hstep : step objs s tid with
    | none => simp [hstep] at h
    | some s2 =>
      rw [hstep] at h
      exact ih s2 (step_inv objs threads s s2 tid hMN hinv hstep).1
        (step_countInv objs threads s s2 tid hMN hclean hR hinv hcnt hstep) h

theorem sum_map_replicate {α : Type} (f : α → Nat) (n : Nat) (x : α) :
    ((List.replicate n x).map f).sum = n * f x := by
  induction n with
  | zero => simp
  | succ k ih =>
    simp only [List.replicate_succ, List.map, List.sum_cons, ih]
    rw [Nat.succ_mul]
    omega

theorem init_inv (objs : List Obj) (threads : Nat) : Inv objs threads (init threads) := by
  have hf : finCount (init threads).pcs = 0 := by
    simp [finCount, init, sum_map_replicate, finInd, Pc.isFinished]
  have hm : claimsMade (init threads) = 0 := by
    simp [claimsMade, init]
  refine ⟨by simp [init], by simp [init], by simp [init], by omega, fun h0 => by omega, ?_, ?_, ?_⟩
  · rw [hm]
    simp [init]
  · intro p hp
    simp [init] at hp
  · simp [init]

theorem init_remaining (objs : List Obj) (threads : Nat) :
    remaining objs (init threads) = stepBound objs threads := by
  have hm : claimsMade (init threads) = 0 := by
    simp [claimsMade, init]
  unfold remaining stepBound
  rw [hm]
  simp [init, sum_map_replicate, pcWork]

theorem init_countInv (objs : List Obj) (threads : Nat) : CountInv objs (init threads) := by
  have hm : claimsMade (init threads) = 0 := by
    simp [claimsMade, init]
  refine ⟨by simp [init], by simp [init, sum_map_replicate, pcDirt], ?_⟩
  rw [hm]
  simp [init, sum_map_replicate, pcPending, totalRecords]

theorem allFinished_finCount (pcs : List Pc) (h : pcs.all Pc.isFinished = true) :
    finCount pcs = pcs.length := by
  induction pcs with
  | nil => rfl
  | cons p rest ih =>
    simp only [List.all_cons, Bool.and_eq_true] at h
    have := ih h.2
    simp only [finCount, List.map, List.sum_cons, List.length_cons, finInd, h.1, if_true] at this ⊢
    omega

theorem allFinished_pending (pcs : List Pc) (h : pcs.all Pc.isFinished = true) :
    (pcs.map pcPending).sum = 0 := by
  induction pcs with
  | nil => rfl
  | cons p rest ih =>
    simp only [List.all_cons, Bool.and_eq_true] at h
    have := ih h.2
    have hp : pcPending p = 0 := by
      cases p with
      | scanning fix r => simp [Pc.isFinished] at h
      | _ => rfl
    simp only [List.map, List.sum_cons, hp, this]

/-- A live process in which some worker is still in its loop can take a step. -/
theorem progress (objs : List Obj) (s : State) (hst : s.status = Status.running)
    (hnf : allFinished s = false) :
    ∃ tid, tid < s.pcs.length ∧ (step objs s tid).isSome = true := by
  unfold allFinished at hnf
  have hex : ∃ p ∈ s.pcs, Pc.isFinished p = false := by
    by_contra hcon
    have hall : s.pcs.all Pc.isFinished = true := by
      rw [List.all_eq_true]
      intro p hp
      by_contra hpf
      exact hcon ⟨p, hp, by simpa using hpf⟩
    rw [hall] at hnf
    cases hnf
  obtain ⟨p, hp, hpf⟩ := hex
  obtain ⟨tid, htid, hget⟩ := List.getElem_of_mem hp
  have hpc : s.pcs[tid]? = some p := by
    rw [List.getElem?_eq_getElem htid, hget]
  refine ⟨tid, htid, ?_⟩
  cases p with
  | atClaim =>
    simp only [step, hst, hpc]
    split
    · split
      · rfl
      · split
        · rfl
        · split <;> rfl
    · rfl
  | scanning fix rest =>
    cases rest with
    | nil => simp only [step, hst, hpc, Option.isSome_some]
    | cons r rest =>
      simp only [step, hst, hpc]
      split <;> rfl
  | finished => simp [Pc.isFinished] at hpf

/-- When every worker has left its loop, the claimed indices are exactly
`0, 1, ..., M-1`. -/
theorem final_claimed (objs : List Obj) (threads : Nat) (s : State) (hN : 1 ≤ threads)
    (hinv : Inv objs threads s) (hfin : allFinished s = true) :
    objs.length < claimsMade s
    ∧ s.claimed.map Prod.snd = (List.range objs.length).map Int.ofNat := by
  have hc := allFinished_finCount s.pcs hfin
  have hlt : objs.length < claimsMade s := hinv.fin_ge (by rw [hc, hinv.pcs_len]; omega)
  refine ⟨hlt, ?_⟩
  rw [hinv.claimed_eq, Nat.min_eq_right (by omega)]

theorem claimed_in_range (objs : List Obj) (threads : Nat) (s : State)
    (hinv : Inv objs threads s) (p : Nat × Int) (hp : p ∈ s.claimed) :
    p.1 < threads ∧ 0 ≤ p.2 ∧ p.2 < (objs.length : Int) := by
  refine ⟨hinv.claimed_tid p hp, ?_⟩
  have hmem : p.2 ∈ s.claimed.map Prod.snd := List.mem_map_of_mem Prod.snd hp
  rw [hinv.claimed_eq] at hmem
  obtain ⟨k, hk, hkp⟩ := List.mem_map.mp hmem
  rw [List.mem_range] at hk
  have hkM : k < objs.length := by omega
  rw [← hkp]
  constructor
  · exact Int.ofNat_nonneg k
  · exact Int.ofNat_lt.mpr hkM

theorem count_range_cast (M i : Nat) (h : i < M) :
    ((List.range M).map Int.ofNat).count (i : Int) = 1 := by
  apply List.count_eq_one_of_mem
  · exact (List.nodup_range M).map Int.ofNat_injective
  · exact List.mem_map.mpr ⟨i, List.mem_range.mpr h, rfl⟩

/-- C1: with at least one worker and a counter that stays in the `int64` range
(`M + N ≤ 2^63`), in every interleaving of worker steps from the start state:
once all workers have left their loop the indices that passed the bound check
are exactly `0, 1, ..., M-1`, each logged once; at any time every such index is
within `[0, M)` and was obtained by a worker below `N`, and `foundObjects` is
never indexed out of range; the interleaving has at most `stepBound` steps, and
while the process is alive and some worker is still in its loop a step is
possible, so every interleaving can be run until all workers have left. -/
theorem work_distribution (objs : List Obj) (threads : Nat) (sched : List Nat) (s : State)
    (hN : 1 ≤ threads) (hMN : objs.length + threads ≤ 2 ^ 63)
    (hrun : run objs (init threads) sched = some s) :
    (allFinished s = true →
        s.claimed.map Prod.snd = (List.range objs.length).map Int.ofNat
        ∧ ∀ i : Nat, i < objs.length → (s.claimed.map Prod.snd).count (i : Int) = 1)
    ∧ (∀ p ∈ s.claimed, p.1 < threads ∧ 0 ≤ p.2 ∧ p.2 < (objs.length : Int))
    ∧ s.status ≠ Status.indexPanic
    ∧ sched.length ≤ stepBound objs threads
    ∧ (s.status = Status.running → allFinished s = false →
        ∃ tid, tid < threads ∧ (step objs s tid).isSome = true) := by
  obtain ⟨hinv, hlen⟩ := run_inv objs threads sched (init threads) s hMN (init_inv objs threads) hrun
  rw [init_remaining] at hlen
  refine ⟨fun hfin => ?_, claimed_in_range objs threads s hinv, hinv.no_panic, by omega,
    fun hst hnf => ?_⟩
  · have hcl := (final_claimed objs threads s hN hinv hfin).2
    refine ⟨hcl, fun i hi => ?_⟩
    rw [hcl]
    exact count_range_cast objs.length i hi
  · obtain ⟨tid, htid, hsome⟩ := progress objs s hst hnf
    exact ⟨tid, by rw [← hinv.pcs_len]; exact htid, hsome⟩

/-- C2: with at least one worker, an object list whose streams all open, whose
decoders all construct and whose records all read without error, `R` the total
number of records, and counters that stay in range (`M + N ≤ 2^63`,
`R < 2^64`), in every interleaving of worker steps from the start state: once
all workers have left their loop the sum of `linesRead` is exactly `R`; there
is one counter for each worker, the sum never exceeds `R`, the process stays
alive, the interleaving has at most `stepBound` steps and a step is possible as
long as some worker is still in its loop. -/
theorem record_counting (objs : List Obj) (threads : Nat) (sched : List Nat) (s : State)
    (hN : 1 ≤ threads) (hMN : objs.length + threads ≤ 2 ^ 63)
    (hclean : ∀ o ∈ objs, o.clean = true) (hR : totalRecords objs < 2 ^ 64)
    (hrun : run objs (init threads) sched = some s) :
    (allFinished s = true → s.linesRead.sum = totalRecords objs)
    ∧ s.linesRead.length = threads
    ∧ s.linesRead.sum ≤ totalRecords objs
    ∧ s.status = Status.running
    ∧ sched.length ≤ stepBound objs threads
    ∧ (allFinished s = false → ∃ tid, tid < threads ∧ (step objs s tid).isSome = true) := by
  obtain ⟨hinv, hlen⟩ := run_inv objs threads sched (init threads) s hMN (init_inv objs threads) hrun
  have hcnt := run_countInv objs threads sched (init threads) s hMN hclean hR
    (init_inv objs threads) (init_countInv objs threads) hrun
  rw [init_remaining] at hlen
  have htot := hcnt.total
  refine ⟨fun hfin => ?_, hinv.lines_len, by omega, hcnt.running, by omega, fun hnf => ?_⟩
  · have hlt := (final_claimed objs threads s hN hinv hfin).1
    have hp := allFinished_pending s.pcs hfin
    have hd : objs.drop (claimsMade s) = [] := List.drop_eq_nil_of_le (by omega)
    rw [hp, hd] at htot
    simpa using htot
  · obtain ⟨tid, htid, hsome⟩ := progress objs s hcnt.running hnf
    exact ⟨tid, by rw [← hinv.pcs_len]; exact htid, hsome⟩

theorem set_same {α : Type} (l : List α) (i : Nat) (x : α) (h : l[i]? = some x) :
    l.set i x = l := by
  induction l generalizing i with
  | nil => rfl
  | cons a rest ih =>
    cases i with
    | zero =>
      simp only [List.getElem?_cons_zero, Option.some.injEq] at h
      rw [List.set, h]
    | succ j =>
      simp only [List.getElem?_cons_succ] at h
      rw [List.set, ih j h]

theorem getElem?_set_same {α : Type} (l : List α) (i : Nat) (x y : α) (h : l[i]? = some y) :
    (l.set i x)[i]? = some x := by
  have hlt : i < l.length := (List.getElem?_eq_some_iff.mp h).1
  simp [List.getElem?_set_self hlt]

/-- A step of another worker leaves this worker's control point and counter
alone and closes no stream less. -/
theorem step_frame (objs : List Obj) (s s1 : State) (t tid : Nat) (hne : t ≠ tid)
    (h : step objs s t = some s1) :
    s1.pcs[tid]? = s.pcs[tid]? ∧ s1.linesRead[tid]? = s.linesRead[tid]?
      ∧ ∀ x ∈ s.closed, x ∈ s1.closed := by
  cases hst : s.status with
  | running =>
    cases hpc : s.pcs[t]? with
    | none => simp [step, hst, hpc] at h
    | some p =>
      cases p with
      | atClaim =>
        simp only [step, hst, hpc] at h
        repeat' split at h
        all_goals simp only [Option.some.injEq] at h
        all_goals subst h
        all_goals exact ⟨by simp [List.getElem?_set_ne hne], rfl, fun x hx => hx⟩
      | scanning fix rest =>
        cases rest with
        | nil =>
          simp only [step, hst, hpc, Option.some.injEq] at h
          subst h
          exact ⟨by simp [List.getElem?_set_ne hne], rfl, fun x hx => by simp [hx]⟩
        | cons r rest =>
          simp only [step, hst, hpc] at h
          split at h
          · simp only [Option.some.injEq] at h
            subst h
            exact ⟨by simp [List.getElem?_set_ne hne],
              by simp [incLines, List.getElem?_set_ne hne], fun x hx => hx⟩
          · simp only [Option.some.injEq] at h
            subst h
            exact ⟨by simp [List.getElem?_set_ne hne], rfl, fun x hx => by simp [hx]⟩
      | finished => simp [step, hst, hpc] at h
  | fatal msg => simp [step, hst] at h
  | indexPanic => simp [step, hst] at h

theorem run_frame (objs : List Obj) (tid : Nat) (sched : List Nat) (s s1 : State)
    (hcount : sched.count tid = 0) (h : run objs s sched = some s1) :
    s1.pcs[tid]? = s.pcs[tid]? ∧ s1.linesRead[tid]? = s.linesRead[tid]?
      ∧ ∀ x ∈ s.closed, x ∈ s1.closed := by
  induction sched generalizing s with
  | nil =>
    simp only [run, Option.some.injEq] at h
    subst h
    exact ⟨rfl, rfl, fun x hx => hx⟩
  | cons t rest ih =>
    simp only [run] at h
    cases hstep : step objs s t with
    | none => simp [hstep] at h
    | some s2 =>
      rw [hstep] at h
      have hne : t ≠ tid := by
        intro heq
        rw [heq, List.count_cons_self] at hcount
        omega
      have hrest : rest.count tid = 0 := by
        rw [List.count_cons_of_ne (Ne.symm hne)] at hcount
        exact hcount
      obtain ⟨f1, f2, f3⟩ := step_frame objs s s2 t tid hne hstep
      obtain ⟨g1, g2, g3⟩ := ih s2 hrest h
      exact ⟨g1.trans f1, g2.trans f2, fun x hx => g3 x (f3 x hx)⟩

theorem run_cons_of_step (objs : List Obj) (s s2 : State) (t : Nat) (rest : List Nat)
    (h : step objs s t = some s2) : run objs s (t :: rest) = run objs s2 rest := by
  simp [run, h]

/-- One iteration of the decode loop whose `Read()` succeeds. -/
theorem step_read (objs : List Obj) (s : State) (tid fix v : Nat) (rest : List Bool)
    (hst : s.status = Status.running)
    (hpc : s.pcs[tid]? = some (Pc.scanning fix (true :: rest)))
    (hv : s.linesRead[tid]? = some v) :
    step objs s tid = some { s with linesRead := s.linesRead.set tid ((v + 1) % 2 ^ 64),
                                    pcs := s.pcs.set tid (Pc.scanning fix rest) } := by
  simp [step, hst, hpc, incLines, hv]

/-- The exit from the decode loop: `Scan()` is false, or `Read()` failed. -/
theorem step_exit (objs : List Obj) (s : State) (tid fix : Nat) (tail : List Bool)
    (hst : s.status = Status.running) (hpc : s.pcs[tid]? = some (Pc.scanning fix tail))
    (htail : tail.head? ≠ some true) :
    step objs s tid = some { s with errorsLogged := s.errorsLogged + (if tail = [] then 0 else 1),
                                    closed := s.closed ++ [fix],
                                    pcs := s.pcs.set tid Pc.atClaim } := by
  cases tail with
  | nil => simp [step, hst, hpc]
  | cons r rest =>
    cases r with
    | true => simp at htail
    | false => simp [step, hst, hpc]

theorem add_mod_succ (v k : Nat) : ((v + 1) % 2 ^ 64 + k) % 2 ^ 64 = (v + (k + 1)) % 2 ^ 64 := by
  omega

/-- The worker alone: `k` successful reads and the exit from the loop. -/
theorem run_decode (objs : List Obj) (tid fix : Nat) (tail : List Bool)
    (htail : tail.head? ≠ some true) (k : Nat) :
    ∀ (s : State) (v : Nat), s.status = Status.running →
      s.pcs[tid]? = some (Pc.scanning fix (List.replicate k true ++ tail)) →
      s.linesRead[tid]? = some v → v < 2 ^ 64 →
      run objs s (List.replicate (k + 1) tid)
        = some { s with linesRead := s.linesRead.set tid ((v + k) % 2 ^ 64),
                        errorsLogged := s.errorsLogged + (if tail = [] then 0 else 1),
                        closed := s.closed ++ [fix],
                        pcs := s.pcs.set tid Pc.atClaim } := by
  induction k with
  | zero =>
    intro s v hst hpc hv hv64
    simp only [List.replicate, List.nil_append] at hpc
    show run objs s [tid] = _
    rw [run_cons_of_step objs s _ tid [] (step_exit objs s tid fix tail hst hpc htail)]
    simp only [run, Nat.add_zero, Nat.mod_eq_of_lt hv64, set_same s.linesRead tid v hv]
  | succ k ih =>
    intro s v hst hpc hv hv64
    rw [List.replicate_succ, List.cons_append] at hpc
    have h2 := ih { s with linesRead := s.linesRead.set tid ((v + 1) % 2 ^ 64),
                           pcs := s.pcs.set tid (Pc.scanning fix (List.replicate k true ++ tail)) }
      ((v + 1) % 2 ^ 64) hst (getElem?_set_same _ _ _ _ hpc)
      (getElem?_set_same _ _ _ _ hv) (Nat.mod_lt _ (by norm_num))
    rw [List.replicate_succ,
      run_cons_of_step objs s _ tid _ (step_read objs s tid fix v _ hst hpc hv), h2]
    simp only [List.set_set, add_mod_succ]

/-- The worker among the others: in any interleaving in which it takes exactly
`k + 1` steps it counts `k` records and ends in front of its next claim. -/
theorem run_decode_interleaved (objs : List Obj) (tid fix : Nat) (tail : List Bool)
    (htail : tail.head? ≠ some true) (sched : List Nat) :
    ∀ (k : Nat) (s s1 : State) (v : Nat),
      s.pcs[tid]? = some (Pc.scanning fix (List.replicate k true ++ tail)) →
      s.linesRead[tid]? = some v → v < 2 ^ 64 →
      run objs s sched = some s1 → sched.count tid = k + 1 →
      s1.pcs[tid]? = some Pc.atClaim ∧ s1.linesRead[tid]? = some ((v + k) % 2 ^ 64)
        ∧ fix ∈ s1.closed := by
  induction sched with
  | nil =>
    intro k s s1 v _ _ _ _ hcount
    simp at hcount
  | cons t rest ih =>
    intro k s s1 v hpc hv hv64 hrun hcount
    simp only [run] at hrun
    cases hstep : step objs s t with
    | none => simp [hstep] at hrun
    | some s2 =>
      rw [hstep] at hrun
      have hst : s.status = Status.running := by
        cases hs : s.status with
        | running => rfl
        | fatal msg => simp [step, hs] at hstep
        | indexPanic => simp [step, hs] at hstep
      by_cases hne : t = tid
      · subst hne
        rw [List.count_cons_self] at hcount
        have hrest : rest.count t = k := by omega
        cases k with
        | zero =>
          simp only [List.replicate, List.nil_append] at hpc
          rw [step_exit objs s t fix tail hst hpc htail, Option.some.injEq] at hstep
          obtain ⟨g1, g2, g3⟩ := run_frame objs t rest s2 s1 hrest hrun
          rw [← hstep] at g1 g2 g3
          refine ⟨?_, ?_, ?_⟩
          · rw [g1]
            exact getElem?_set_same _ _ _ _ hpc
          · rw [g2, Nat.add_zero, Nat.mod_eq_of_lt hv64]
            exact hv
          · exact g3 fix (by simp)
        | succ k =>
          rw [List.replicate_succ, List.cons_append] at hpc
          rw [step_read objs s t fix v _ hst hpc hv, Option.some.injEq] at hstep
          have h2 := ih k s2 s1 ((v + 1) % 2 ^ 64)
            (by rw [← hstep]; exact getElem?_set_same _ _ _ _ hpc)
            (by rw [← hstep]; exact getElem?_set_same _ _ _ _ hv)
            (Nat.mod_lt _ (by norm_num)) hrun hrest
          rw [add_mod_succ] at h2
          exact h2
      · rw [List.count_cons_of_ne (Ne.symm hne)] at hcount
        obtain ⟨f1, f2, _⟩ := step_frame objs s s2 t tid hne hstep
        exact ih k s2 s1 v (by rw [f1]; exact hpc) (by rw [f2]; exact hv) hv64 hrun hcount

/-- A live worker in front of `atomic.AddInt64` can always take that step. -/
theorem step_atClaim_isSome (objs : List Obj) (s : State) (tid : Nat)
    (hst : s.status = Status.running) (hpc : s.pcs[tid]? = some Pc.atClaim) :
    (step objs s tid).isSome = true := by
  simp only [step, hst, hpc]
  split
  · split
    · rfl
    · split
      · rfl
      · split <;> rfl
  · rfl

/-- Witness of C1: two workers, two objects, one record; a complete
interleaving claims 0 and 1, each once. -/
theorem work_distribution_witness :
    run [⟨true, true, [true]⟩, ⟨true, true, []⟩] (init 2) [0, 1, 0, 1, 1, 0, 0]
      = some { ix := 3, pcs := [Pc.finished, Pc.finished], linesRead := [1, 0],
               claimed := [(0, 0), (1, 1)], closed := [1, 0], errorsLogged := 0,
               status := Status.running }
    ∧ [(0, (0 : Int)), (1, (1 : Int))].map Prod.snd = (List.range 2).map Int.ofNat :=
  have hrun : run [⟨true, true, [true]⟩, ⟨true, true, []⟩] (init 2) [0, 1, 0, 1, 1, 0, 0]
      = some { ix := 3, pcs := [Pc.finished, Pc.finished], linesRead := [1, 0],
               claimed := [(0, 0), (1, 1)], closed := [1, 0], errorsLogged := 0,
               status := Status.running } := by decide
  ⟨hrun, ((work_distribution [⟨true, true, [true]⟩, ⟨true, true, []⟩] 2 [0, 1, 0, 1, 1, 0, 0] _
    (by decide) (by decide) hrun).1 (by decide)).1⟩

/-- Witness of C2: two workers, two objects with one record in all; after a
complete interleaving the counters `[1, 0]` add up to the one record. -/
theorem record_counting_witness :
    run [⟨true, true, [true]⟩, ⟨true, true, []⟩] (init 2) [0, 1, 0, 1, 1, 0, 0]
      = some { ix := 3, pcs := [Pc.finished, Pc.finished], linesRead := [1, 0],
               claimed := [(0, 0), (1, 1)], closed := [1, 0], errorsLogged := 0,
               status := Status.running }
    ∧ totalRecords [⟨true, true, [true]⟩, ⟨true, true, []⟩] = 1
    ∧ ([1, 0] : List Nat).sum = totalRecords [⟨true, true, [true]⟩, ⟨true, true, []⟩] :=
  have hrun : run [⟨true, true, [true]⟩, ⟨true, true, []⟩] (init 2) [0, 1, 0, 1, 1, 0, 0]
      = some { ix := 3, pcs := [Pc.finished, Pc.finished], linesRead := [1, 0],
               claimed := [(0, 0), (1, 1)], closed := [1, 0], errorsLogged := 0,
               status := Status.running } := by decide
  ⟨hrun, by decide, (record_counting [⟨true, true, [true]⟩, ⟨true, true, []⟩] 2
    [0, 1, 0, 1, 1, 0, 0] _ (by decide) (by decide) (by decide) (by decide) hrun).1 (by decide)⟩

/-- C8, as stated, fails: with one worker and a first object whose stream opens
but whose decoder cannot be constructed, the claim step ends in the `Fatal` log
call "failed to read Avro from file"; the process is gone, the worker takes no
further step and the second object is never claimed. -/
theorem decoder_failure_aborts_scan :
    step [⟨true, false, []⟩, ⟨true, true, [true]⟩] (init 1) 0
      = some { ix := 0, pcs := [Pc.atClaim], linesRead := [0], claimed := [(0, 0)],
               closed := [], errorsLogged := 0,
               status := Status.fatal "failed to read Avro from file" }
    ∧ step [⟨true, false, []⟩, ⟨true, true, [true]⟩]
        { ix := 0, pcs := [Pc.atClaim], linesRead := [0], claimed := [(0, 0)],
          closed := [], errorsLogged := 0,
          status := Status.fatal "failed to read Avro from file" } 0 = none
    ∧ run [⟨true, false, []⟩, ⟨true, true, [true]⟩] (init 1) [0, 0] = none := by
  decide

/-- C8, amended: when a worker claims an object whose stream opens but whose
decoder cannot be constructed, it logs "failed to read Avro from file" at level
Fatal, which exits the process: the counters, the Error log and the closed
streams are unchanged, the claim is logged, and no worker can take a step
afterwards. -/
theorem decoder_failure_is_fatal (objs : List Obj) (s : State) (tid c : Nat) (o : Obj)
    (hst : s.status = Status.running) (hpc : s.pcs[tid]? = some Pc.atClaim)
    (hfix : wrapInt64 (s.ix + 1) = (c : Int)) (ho : objs[c]? = some o)
    (hopen : o.opens = true) (hdec : o.decoderOk = false) :
    ∃ s1, step objs s tid = some s1
      ∧ s1.status = Status.fatal "failed to read Avro from file"
      ∧ s1.linesRead = s.linesRead ∧ s1.errorsLogged = s.errorsLogged ∧ s1.closed = s.closed
      ∧ s1.claimed = s.claimed ++ [(tid, (c : Int))]
      ∧ ∀ t, step objs s1 t = none := by
  have hc : c < objs.length := (List.getElem?_eq_some_iff.mp ho).1
  have hlt : (c : Int) < (objs.length : Int) := by exact_mod_cast hc
  have hobj : objAt objs (c : Int) = some o := by
    simp [objAt, ho]
  refine ⟨{ s with ix := (c : Int), claimed := s.claimed ++ [(tid, (c : Int))],
                   status := Status.fatal "failed to read Avro from file" },
    ?_, rfl, rfl, rfl, rfl, rfl, fun t => ?_⟩
  · simp [step, hst, hpc, hfix, hlt, hobj, hopen, hdec]
  · simp [step]

/-- Witness of C8 amended: one worker whose first object has a header that
cannot be decoded. -/
theorem decoder_failure_is_fatal_witness :
    ∃ s1, step [⟨true, false, []⟩, ⟨true, true, [true]⟩] (init 1) 0 = some s1
      ∧ s1.status = Status.fatal "failed to read Avro from file"
      ∧ s1.linesRead = (init 1).linesRead ∧ s1.errorsLogged = (init 1).errorsLogged
      ∧ s1.closed = (init 1).closed
      ∧ s1.claimed = (init 1).claimed ++ [(0, ((0 : Nat) : Int))]
      ∧ ∀ t, step [⟨true, false, []⟩, ⟨true, true, [true]⟩] s1 t = none :=
  decoder_failure_is_fatal [⟨true, false, []⟩, ⟨true, true, [true]⟩] (init 1) 0 0
    ⟨true, false, []⟩ (by decide) (by decide) (by decide) (by decide) (by decide) (by decide)

/-- C9: a live worker `tid` is in the decode loop of object `fix`, its counter
holds `v`, and the decode sequence yields `k` records and then stops with a
failure (`Read()` fails, which is logged at level Error, or `Scan()` is false).
Run alone for `k + 1` steps the worker ends with its counter at `v + k` (in
`uint64`), the stream of `fix` closed, the process alive, `ix` and the claims
untouched, and in front of its next claim, which it can take.  In any
interleaving with other workers in which it takes exactly `k + 1` steps, its
counter is `v + k`, it is in front of its next claim and the stream of `fix`
is closed. -/
theorem midstream_failure_keeps_count (objs : List Obj) (s : State) (tid fix k v : Nat)
    (tail : List Bool) (hst : s.status = Status.running)
    (hpc : s.pcs[tid]? = some (Pc.scanning fix (List.replicate k true ++ tail)))
    (htail : tail.head? ≠ some true)
    (hv : s.linesRead[tid]? = some v) (hv64 : v < 2 ^ 64) :
    (∃ s1, run objs s (List.replicate (k + 1) tid) = some s1
        ∧ s1.linesRead = s.linesRead.set tid ((v + k) % 2 ^ 64)
        ∧ s1.pcs = s.pcs.set tid Pc.atClaim
        ∧ s1.closed = s.closed ++ [fix]
        ∧ s1.errorsLogged = s.errorsLogged + (if tail = [] then 0 else 1)
        ∧ s1.status = Status.running ∧ s1.ix = s.ix ∧ s1.claimed = s.claimed
        ∧ (step objs s1 tid).isSome = true)
    ∧ (∀ (sched : List Nat) (s1 : State),
        run objs s sched = some s1 → sched.count tid = k + 1 →
        s1.pcs[tid]? = some Pc.atClaim ∧ s1.linesRead[tid]? = some ((v + k) % 2 ^ 64)
          ∧ fix ∈ s1.closed) := by
  refine ⟨⟨_, run_decode objs tid fix tail htail k s v hst hpc hv hv64,
    rfl, rfl, rfl, rfl, hst, rfl, rfl, ?_⟩, fun sched s1 hrun hcount =>
      run_decode_interleaved objs tid fix tail htail sched k s s1 v hpc hv hv64 hrun hcount⟩
  exact step_atClaim_isSome objs _ tid hst (getElem?_set_same _ _ _ _ hpc)

/-- Witness of C9: a counter at 5, two records read, then a failing read: the
counter ends at 7, one error logged, stream 0 closed, worker in front of its
next claim. -/
theorem midstream_failure_keeps_count_witness :
    ∃ s1, run [⟨true, true, [true, true, false, true]⟩]
          { ix := 0, pcs := [Pc.scanning 0 [true, true, false, true]], linesRead := [5],
            claimed := [(0, 0)], closed := [], errorsLogged := 0, status := Status.running }
          [0, 0, 0] = some s1
        ∧ s1.linesRead = [7] ∧ s1.pcs = [Pc.atClaim] ∧ s1.closed = [0]
        ∧ s1.errorsLogged = 1 ∧ s1.status = Status.running :=
  (midstream_failure_keeps_count [⟨true, true, [true, true, false, true]⟩]
    { ix := 0, pcs := [Pc.scanning 0 [true, true, false, true]], linesRead := [5],
      claimed := [(0, 0)], closed := [], errorsLogged := 0, status := Status.running }
    0 0 2 5 [false, true] (by decide) (by decide) (by decide) (by decide) (by decide)).1.imp
    (fun _ h => ⟨h.1, h.2.1, h.2.2.1, h.2.2.2.1, h.2.2.2.2.1, h.2.2.2.2.2.1⟩)

end Benchmark

end GcsBandwidth
